import Mathlib

/-!
Verification of the Markdown merge backend (src/backend/app.py).

Documents and file contents are modelled as lists of characters
(Python str); the processing core of the upload_zip route is embedded
as a pure Lean function that returns the HTTP-level outcome together
with the ordered sequence of progress events put on the session's
queue.  Reads of extracted files can fail; the possible failure of the
read call for the document at global 1-indexed position p is given by
an oracle readErr : Nat -> Bool (a true value means f.read() raises).
-/

/-- Document text, Python str modelled as a list of characters. -/
abbrev Str := List Char

/-- Characters of a Lean string literal, used to write concrete texts. -/
def chars (s : String) : Str := s.data

/-- ASCII whitespace as recognised by Python str.split() and str.lstrip()
(space, tab, newline, carriage return, vertical tab, form feed). -/
def pyIsSpace (c : Char) : Bool :=
  c = ' ' || c = '\t' || c = '\n' || c = '\r' || c = '\x0b' || c = '\x0c'

/-- Python text.lstrip(): drop leading whitespace. -/
def lstrip (s : Str) : Str := s.dropWhile pyIsSpace

/-- Word-counting scan: walks the text, counting the starts of maximal
nonblank runs; the flag records whether the previous character was
inside a word. -/
def count_aux : Str → Bool → Nat
  | [], _ => 0
  | c :: rest, inWord =>
    if pyIsSpace c then count_aux rest false
    else (if inWord then 0 else 1) + count_aux rest true

/-- app.py count_words: len(text.split()), the number of maximal runs of
non-whitespace characters. -/
def count_words (text : Str) : Nat := count_aux text false

/-- Index of the leftmost occurrence of pat in s, if any
(the scan Python str.split and str.replace perform). -/
def findSub (pat : Str) (s : Str) : Option Nat :=
  match s with
  | [] => if pat.isPrefixOf ([] : Str) then some 0 else none
  | _ :: rest => if pat.isPrefixOf s then some 0 else (findSub pat rest).map (· + 1)

/-- Python s.split(sep, maxsplit): split at the leftmost occurrences of
sep, left to right and non-overlapping, performing at most maxsplit
splits.  Structural recursion on the split budget. -/
def pySplit (sep : Str) : Nat → Str → List Str
  | 0, s => [s]
  | m + 1, s =>
    match findSub sep s with
    | none => [s]
    | some j => s.take j :: pySplit sep m (s.drop (j + sep.length))

/-- The three-character metadata delimiter of app.py. -/
def marker : Str := chars "---"

/-- Metadata removal inlined in upload_zip (app.py lines 161-166):
if the text starts with the marker, split on the marker with maxsplit 2;
when that yields three parts, keep the third one with leading whitespace
stripped, otherwise keep the text unchanged. -/
def strip_metadata (content : Str) : Str :=
  if marker.isPrefixOf content then
    let parts := pySplit marker 2 content
    if parts.length = 3 then lstrip (parts.getD 2 []) else content
  else content

theorem findSub_bound {pat s : Str} {j : Nat} (h : findSub pat s = some j) :
    j + pat.length ≤ s.length := by
  induction s generalizing j with
  | nil =>
    simp only [findSub] at h
    split at h
    · rename_i hp
      cases pat with
      | nil => simp_all
      | cons a l => simp [List.isPrefixOf] at hp
    · exact absurd h (by simp)
  | cons c rest ih =>
    simp only [findSub] at h
    split at h
    · rename_i hp
      have : pat.length ≤ (c :: rest).length := by
        obtain ⟨t, ht⟩ := List.isPrefixOf_iff_prefix.mp hp
        rw [← ht]; simp
      simp at h
      omega
    · cases hrec : findSub pat rest with
      | none => rw [hrec] at h; simp at h
      | some j2 =>
        rw [hrec] at h
        simp at h
        have := ih hrec
        simp
        omega

/-- Python str.replace(pat, rep): replace every non-overlapping leftmost
occurrence of pat by rep, scanning the original text left to right. -/
def pyReplace (s pat rep : Str) : Str :=
  if hp : pat = [] then s
  else
    match hf : findSub pat s with
    | none => s
    | some j => s.take j ++ rep ++ pyReplace (s.drop (j + pat.length)) pat rep
termination_by s.length
decreasing_by
  have hb := findSub_bound hf
  have hlen : pat.length ≥ 1 := by
    cases pat with
    | nil => exact absurd rfl hp
    | cons a l => simp
  simp only [List.length_drop]
  omega

/-- One decimal digit as a character. -/
def digitChar (d : Nat) : Char := Char.ofNat (48 + d)

/-- Accumulating decimal printer; the first argument is fuel, always
called with at least the number itself, which bounds the digit count. -/
def decimalAux : Nat → Nat → Str → Str
  | 0, _, acc => acc
  | fuel + 1, n, acc =>
    if n = 0 then acc else decimalAux fuel (n / 10) (digitChar (n % 10) :: acc)

/-- Decimal rendering of a natural number, the text the Python f-string
interpolation produces for a nonnegative int. -/
def decimal (n : Nat) : Str := if n = 0 then chars "0" else decimalAux n n []

/-- A file extracted from the uploaded archive: its archive-relative
path (as produced by os.walk over the extraction directory) and its
text content. -/
structure MDFile where
  path : Str
  content : Str
deriving DecidableEq, Repr

/-- os.path.basename: the part of the path after the last slash. -/
def basename (p : Str) : Str :=
  p.foldl (fun acc c => if c = '/' then [] else acc ++ [c]) []

/-- The outcome of parsing and extracting the uploaded bytes with
zipfile.ZipFile: either the bytes are not a well-formed ZIP archive
(zipfile.BadZipFile is raised, app.py line 116) or extraction succeeds
and os.walk discovers an ordered list of files. -/
inductive ZipUpload where
  | badZip : ZipUpload
  | extracted : List MDFile → ZipUpload
deriving DecidableEq, Repr

/-- One entry put on the progress queue of the session
(app.py progress_data, copied at each put). -/
structure ProgressEvent where
  total_files : Nat
  current_index : Nat
  done : Bool
deriving DecidableEq, Repr

/-- The caller-visible result of upload_zip. -/
inductive UploadOutcome where
  /-- jsonify({"error": msg}) with the given HTTP status. -/
  | errorResponse : Nat → Str → UploadOutcome
  /-- send_file of an in-memory ZIP holding the given (entry name,
  entry content) pairs, with the given download name. -/
  | zipResponse : List (Str × Str) → Str → UploadOutcome
  /-- an exception escaped upload_zip (no handler on this path). -/
  | uncaughtError : UploadOutcome
deriving DecidableEq, Repr

/-- A whole run of upload_zip: the outcome, the ordered list of events
put on the session's progress queue, and whether the temporary scratch
directory was removed (the with tempfile.TemporaryDirectory() block
frees it on every exit path, exceptions included). -/
structure RunResult where
  outcome : UploadOutcome
  events : List ProgressEvent
  tempDirCleaned : Bool
deriving DecidableEq, Repr

/-- app.py line 59. -/
def MAX_FILES_PER_MERGE : Nat := 49

/-- app.py line 60. -/
def MAX_WORDS : Nat := 50000

/-- The blank-line separator appended after each document. -/
def nl2 : Str := chars "\n\n"

/-- Recursive markdown discovery (app.py lines 120-124): keep the
walked files whose name ends in ".md", in walk order. -/
def md_files (files : List MDFile) : List MDFile :=
  files.filter fun f => (chars ".md").isSuffixOf f.path

/-- The inner loop over one batch (app.py lines 151-168).  p is the
0-based global position of the first document of the remaining list,
acc the accumulated merged text.  For each document the loop sets
current_index to the 1-based global position and puts a copy of the
progress dict, then reads the file: when the read raises
(readErr (p+1) true) the exception aborts the whole run, with the
event for the failing document already on the queue.  Otherwise the
metadata-stripped text plus a blank line is appended. -/
def batchLoop (n : Nat) (readErr : Nat → Bool) (acc : Str) :
    List Str → Nat → List ProgressEvent × Option Str
  | [], _ => ([], some acc)
  | d :: ds, p =>
    let ev : ProgressEvent := ⟨n, p + 1, false⟩
    if readErr (p + 1) then ([ev], none)
    else
      let r := batchLoop n readErr (acc ++ strip_metadata d ++ nl2) ds (p + 1)
      (ev :: r.1, r.2)

/-- The batch loop of app.py lines 144-178: process the remaining
document texts in windows of MAX_FILES_PER_MERGE, i being the start
offset of the window (the loop variable of range(0, md_count, 49)).
Returns the events put and, unless a read raised, the ordered list of
(filename, merged content) pairs. -/
def mergeLoop (n : Nat) (readErr : Nat → Bool) :
    List Str → Nat → List ProgressEvent × Option (List (Str × Str))
  | [], _ => ([], some [])
  | rem@(_ :: _), i =>
    let batch := rem.take MAX_FILES_PER_MERGE
    let br := batchLoop n readErr [] batch i
    match br.2 with
    | none => (br.1, none)
    | some merged_content =>
      let word_count := count_words merged_content
      let filename :=
        chars "merged_part" ++ decimal (i / MAX_FILES_PER_MERGE + 1) ++ chars ".md"
      let filename :=
        if word_count > MAX_WORDS then
          pyReplace filename (chars ".md") (chars "_OVER50000WORDS.md")
        else filename
      let rest := mergeLoop n readErr (rem.drop MAX_FILES_PER_MERGE) (i + MAX_FILES_PER_MERGE)
      (br.1 ++ rest.1, rest.2.map fun l => (filename, merged_content) :: l)
termination_by rem _ => rem.length
decreasing_by
  rename_i heq
  simp only [MAX_FILES_PER_MERGE, List.length_drop]
  subst heq
  simp
  omega

/-- The processing core of app.py upload_zip (lines 70-190), after the
uploaded bytes are saved and handed to zipfile.  On a bad archive:
400 response with the verbatim message.  Otherwise count the discovered
markdown files; with at most 50 of them build the output ZIP from the
original files keyed by base filename and return without putting any
progress event (line 139 sets done on the local dict only); with more
than 50 run the merge loop and, when no read raised, put one final
event (whose current_index is the last value assigned, the global
count) and return the merged ZIP. -/
def upload_zip (zip : ZipUpload) (uploadName : Str) (readErr : Nat → Bool) : RunResult :=
  match zip with
  | .badZip => ⟨.errorResponse 400 (chars "Invalid ZIP file"), [], true⟩
  | .extracted files =>
    let mds := md_files files
    let md_count := mds.length
    if md_count ≤ 50 then
      ⟨.zipResponse (mds.map fun f => (basename f.path, f.content)) uploadName, [], true⟩
    else
      let r := mergeLoop md_count readErr (mds.map fun f => f.content) 0
      match r.2 with
      | none => ⟨.uncaughtError, r.1, true⟩
      | some merged_files =>
        ⟨.zipResponse merged_files (chars "merged_files.zip"),
         r.1 ++ [⟨md_count, md_count, true⟩], true⟩

/-- Closed form of the text a batch accumulates: each document's
metadata-stripped text followed by the blank-line separator. -/
def batchText (w : List Str) : Str :=
  (w.map fun d => strip_metadata d ++ nl2).flatten

/-- Closed form of the filename of batch number b (1-indexed) whose
merged text has word count wc. -/
def mergeName (b wc : Nat) : Str :=
  if wc > MAX_WORDS then
    pyReplace (chars "merged_part" ++ decimal b ++ chars ".md")
      (chars ".md") (chars "_OVER50000WORDS.md")
  else chars "merged_part" ++ decimal b ++ chars ".md"

/-- Closed form of one merged output. -/
def mkEntry (b : Nat) (w : List Str) : Str × Str :=
  (mergeName b (count_words (batchText w)), batchText w)

/-- Closed form of the merged file list starting at batch number b. -/
def entriesFrom : Nat → List Str → List (Str × Str)
  | _, [] => []
  | b, rem@(_ :: _) =>
    mkEntry b (rem.take MAX_FILES_PER_MERGE) ::
      entriesFrom (b + 1) (rem.drop MAX_FILES_PER_MERGE)
termination_by _ rem => rem.length
decreasing_by
  rename_i heq
  simp only [MAX_FILES_PER_MERGE, List.length_drop]
  subst heq
  simp
  omega

/-- The merged output ZIP entries of a run, empty when the run did not
return a ZIP. -/
def outputEntries (r : RunResult) : List (Str × Str) :=
  match r.outcome with
  | .zipResponse es _ => es
  | _ => []

theorem batchLoop_ok (n : Nat) (readErr : Nat → Bool) (batch : List Str) :
    ∀ (acc : Str) (p : Nat), (∀ t, t < batch.length → readErr (p + t + 1) = false) →
    batchLoop n readErr acc batch p =
      ((List.range batch.length).map fun t => ⟨n, p + t + 1, false⟩,
       some (acc ++ batchText batch)) := by
  induction batch with
  | nil =>
    intro acc p _
    simp [batchLoop, batchText]
  | cons d ds ih =>
    intro acc p h
    have h0 : readErr (p + 1) = false := by
      have := h 0 (by simp)
      simpa using this
    have hds : ∀ t, t < ds.length → readErr (p + 1 + t + 1) = false := by
      intro t ht
      have h2 := h (t + 1) (by simp; omega)
      have he : p + (t + 1) + 1 = p + 1 + t + 1 := by omega
      rwa [he] at h2
    rw [batchLoop, if_neg (by simp [h0])]
    rw [ih (acc ++ strip_metadata d ++ nl2) (p + 1) hds]
    simp only [List.length_cons, List.range_succ_eq_map, List.map_cons, List.map_map,
      Prod.mk.injEq]
    refine ⟨?_, by simp [batchText, List.append_assoc]⟩
    simp only [List.cons.injEq]
    refine ⟨by simp, ?_⟩
    apply List.map_congr_left
    intro a _
    simp [Function.comp]
    omega

theorem map_range_shift (f : Nat → ProgressEvent) (m : Nat) :
    (List.range (m + 1)).map f = f 0 :: (List.range m).map fun t => f (t + 1) := by
  simp [List.range_succ_eq_map, List.map_map, Function.comp]

theorem batchLoop_fail (n : Nat) (readErr : Nat → Bool) (batch : List Str) :
    ∀ (acc : Str) (p t0 : Nat), t0 < batch.length →
    (∀ t, t < t0 → readErr (p + t + 1) = false) →
    readErr (p + t0 + 1) = true →
    batchLoop n readErr acc batch p =
      ((List.range (t0 + 1)).map fun t => ⟨n, p + t + 1, false⟩, none) := by
  induction batch with
  | nil =>
    intro acc p t0 h
    simp at h
  | cons d ds ih =>
    intro acc p t0 hlt hpre hfail
    cases t0 with
    | zero =>
      have h0 : readErr (p + 1) = true := by simpa using hfail
      rw [batchLoop, if_pos (by simp [h0])]
      rw [show (1 : Nat) = 0 + 1 from rfl, map_range_shift]
      simp
    | succ t0 =>
      have h0 : readErr (p + 1) = false := by
        have := hpre 0 (by omega)
        simpa using this
      have hds : ∀ t, t < t0 → readErr (p + 1 + t + 1) = false := by
        intro t ht
        have h2 := hpre (t + 1) (by omega)
        have he : p + (t + 1) + 1 = p + 1 + t + 1 := by omega
        rwa [he] at h2
      have hfail2 : readErr (p + 1 + t0 + 1) = true := by
        have he : p + (t0 + 1) + 1 = p + 1 + t0 + 1 := by omega
        rwa [he] at hfail
      rw [batchLoop, if_neg (by simp [h0])]
      rw [ih (acc ++ strip_metadata d ++ nl2) (p + 1) t0 (by simpa using hlt) hds hfail2]
      rw [map_range_shift (fun t => ⟨n, p + t + 1, false⟩) (t0 + 1)]
      simp only [Prod.mk.injEq, List.cons.injEq]
      refine ⟨⟨by simp, ?_⟩, trivial⟩
      apply List.map_congr_left
      intro a _
      simp
      omega

theorem mergeLoop_ok (n : Nat) (readErr : Nat → Bool) :
    ∀ (L : Nat) (rem : List Str), rem.length = L → ∀ (b : Nat),
    (∀ t, t < rem.length → readErr (MAX_FILES_PER_MERGE * b + t + 1) = false) →
    mergeLoop n readErr rem (MAX_FILES_PER_MERGE * b) =
      ((List.range rem.length).map fun t => ⟨n, MAX_FILES_PER_MERGE * b + t + 1, false⟩,
       some (entriesFrom (b + 1) rem)) := by
  have hM : MAX_FILES_PER_MERGE = 49 := rfl
  intro L
  induction L using Nat.strong_induction_on with
  | _ L ih =>
    intro rem hL b hok
    match rem with
    | [] => simp [mergeLoop, entriesFrom]
    | d :: ds =>
      have hL2 : ds.length + 1 = L := by simpa using hL
      have hbatch : ((d :: ds).take MAX_FILES_PER_MERGE).length ≤ (d :: ds).length := by
        simp [List.length_take]
      rw [mergeLoop]
      rw [batchLoop_ok n readErr _ [] (MAX_FILES_PER_MERGE * b)
        (fun t ht => hok t (lt_of_lt_of_le ht hbatch))]
      have hdiv : MAX_FILES_PER_MERGE * b / MAX_FILES_PER_MERGE + 1 = b + 1 := by
        rw [Nat.mul_div_cancel_left b (by rw [hM]; omega)]
      have hnext : MAX_FILES_PER_MERGE * b + MAX_FILES_PER_MERGE =
          MAX_FILES_PER_MERGE * (b + 1) := by ring
      have hLlt : ((d :: ds).drop MAX_FILES_PER_MERGE).length < L := by
        simp only [List.length_drop, List.length_cons, hM]
        omega
      have hok2 : ∀ t, t < ((d :: ds).drop MAX_FILES_PER_MERGE).length →
          readErr (MAX_FILES_PER_MERGE * (b + 1) + t + 1) = false := by
        intro t ht
        simp only [List.length_drop, List.length_cons, hM] at ht
        have h2 := hok (MAX_FILES_PER_MERGE + t) (by simp [hM]; omega)
        have he : MAX_FILES_PER_MERGE * b + (MAX_FILES_PER_MERGE + t) + 1 =
            MAX_FILES_PER_MERGE * (b + 1) + t + 1 := by ring
        rwa [he] at h2
      rw [hnext]
      rw [ih ((d :: ds).drop MAX_FILES_PER_MERGE).length hLlt
        ((d :: ds).drop MAX_FILES_PER_MERGE) rfl (b + 1) hok2]
      simp only [hdiv, Prod.mk.injEq]
      constructor
      · -- progress events of the head window followed by those of the later windows
        have hsplit : (d :: ds).length =
            ((d :: ds).take MAX_FILES_PER_MERGE).length +
              ((d :: ds).drop MAX_FILES_PER_MERGE).length := by
          simp only [List.length_take, List.length_drop, List.length_cons]
          omega
        rw [hsplit, List.range_add, List.map_append, List.map_map]
        congr 1
        apply List.map_congr_left
        intro a ha
        have ha2 := List.mem_range.mp ha
        simp only [List.length_drop, List.length_cons, hM] at ha2
        simp only [Function.comp, List.length_take, List.length_cons, hM,
          ProgressEvent.mk.injEq]
        refine ⟨trivial, ?_, trivial⟩
        omega
      · -- the merged entries: head window entry then the later ones
        rw [entriesFrom]
        simp [mkEntry, mergeName, batchText]

theorem mergeLoop_fail (n : Nat) (readErr : Nat → Bool) :
    ∀ (L : Nat) (rem : List Str), rem.length = L → ∀ (b g : Nat),
    MAX_FILES_PER_MERGE * b < g → g ≤ MAX_FILES_PER_MERGE * b + rem.length →
    (∀ p, MAX_FILES_PER_MERGE * b < p → p < g → readErr p = false) →
    readErr g = true →
    mergeLoop n readErr rem (MAX_FILES_PER_MERGE * b) =
      ((List.range (g - MAX_FILES_PER_MERGE * b)).map
         fun t => ⟨n, MAX_FILES_PER_MERGE * b + t + 1, false⟩, none) := by
  have hM : MAX_FILES_PER_MERGE = 49 := rfl
  intro L
  induction L using Nat.strong_induction_on with
  | _ L ih =>
    intro rem hL b g hlo hhi hpre hfail
    match rem with
    | [] =>
      simp only [List.length_nil, Nat.add_zero] at hhi
      omega
    | d :: ds =>
      have hL2 : ds.length + 1 = L := by simpa using hL
      have hbl : ((d :: ds).take MAX_FILES_PER_MERGE).length =
          min MAX_FILES_PER_MERGE (ds.length + 1) := by
        simp [List.length_take]
      by_cases hcase : g ≤ MAX_FILES_PER_MERGE * b + ((d :: ds).take MAX_FILES_PER_MERGE).length
      · -- the failing read happens inside the current window
        have ht0 : g - MAX_FILES_PER_MERGE * b - 1 <
            ((d :: ds).take MAX_FILES_PER_MERGE).length := by omega
        have hpre2 : ∀ t, t < g - MAX_FILES_PER_MERGE * b - 1 →
            readErr (MAX_FILES_PER_MERGE * b + t + 1) = false := by
          intro t ht
          exact hpre (MAX_FILES_PER_MERGE * b + t + 1) (by omega) (by omega)
        have hfail2 : readErr (MAX_FILES_PER_MERGE * b +
            (g - MAX_FILES_PER_MERGE * b - 1) + 1) = true := by
          have he : MAX_FILES_PER_MERGE * b + (g - MAX_FILES_PER_MERGE * b - 1) + 1 = g := by
            omega
          rwa [he]
        rw [mergeLoop]
        rw [batchLoop_fail n readErr _ [] (MAX_FILES_PER_MERGE * b)
          (g - MAX_FILES_PER_MERGE * b - 1) ht0 hpre2 hfail2]
        have he2 : g - MAX_FILES_PER_MERGE * b - 1 + 1 = g - MAX_FILES_PER_MERGE * b := by
          omega
        rw [he2]
      · -- the current window succeeds in full; the failure is in a later window
        have hhiC : g ≤ MAX_FILES_PER_MERGE * b + (ds.length + 1) := by
          simpa using hhi
        have hbl49 : ((d :: ds).take MAX_FILES_PER_MERGE).length = MAX_FILES_PER_MERGE := by
          rw [hbl] at hcase ⊢
          rw [hM] at hcase hhiC ⊢
          omega
        have hokb : ∀ t, t < ((d :: ds).take MAX_FILES_PER_MERGE).length →
            readErr (MAX_FILES_PER_MERGE * b + t + 1) = false := by
          intro t ht
          rw [hbl49] at ht
          exact hpre (MAX_FILES_PER_MERGE * b + t + 1) (by omega) (by omega)
        rw [mergeLoop]
        rw [batchLoop_ok n readErr _ [] (MAX_FILES_PER_MERGE * b) hokb]
        have hnext : MAX_FILES_PER_MERGE * b + MAX_FILES_PER_MERGE =
            MAX_FILES_PER_MERGE * (b + 1) := by ring
        have hdlen : ((d :: ds).drop MAX_FILES_PER_MERGE).length = L - MAX_FILES_PER_MERGE := by
          simp only [List.length_drop, List.length_cons]
          omega
        have hLlt : ((d :: ds).drop MAX_FILES_PER_MERGE).length < L := by
          rw [hdlen, hM]
          omega
        have hlo2 : MAX_FILES_PER_MERGE * (b + 1) < g := by
          rw [← hnext]
          omega
        have hhi2 : g ≤ MAX_FILES_PER_MERGE * (b + 1) +
            ((d :: ds).drop MAX_FILES_PER_MERGE).length := by
          rw [← hnext, hdlen]
          simp only [List.length_cons] at hhi
          omega
        have hpre2 : ∀ p, MAX_FILES_PER_MERGE * (b + 1) < p → p < g → readErr p = false := by
          intro p h1 h2
          exact hpre p (by omega) h2
        rw [hnext]
        rw [ih ((d :: ds).drop MAX_FILES_PER_MERGE).length hLlt
          ((d :: ds).drop MAX_FILES_PER_MERGE) rfl (b + 1) g hlo2 hhi2 hpre2 hfail]
        simp only [Prod.mk.injEq]
        refine ⟨?_, rfl⟩
        have hsplit : g - MAX_FILES_PER_MERGE * b =
            ((d :: ds).take MAX_FILES_PER_MERGE).length +
              (g - MAX_FILES_PER_MERGE * (b + 1)) := by
          rw [hbl49, ← hnext]
          omega
        rw [hsplit, List.range_add, List.map_append, List.map_map]
        congr 1
        apply List.map_congr_left
        intro a ha
        simp only [Function.comp, hbl49, ProgressEvent.mk.injEq]
        refine ⟨trivial, ?_, trivial⟩
        rw [← hnext]
        ring

theorem upload_zip_single (files : List MDFile) (uploadName : Str) (readErr : Nat → Bool)
    (hn : (md_files files).length ≤ 50) :
    upload_zip (.extracted files) uploadName readErr =
      ⟨.zipResponse ((md_files files).map fun f => (basename f.path, f.content)) uploadName,
       [], true⟩ := by
  rw [upload_zip]
  simp only [if_pos hn]

theorem upload_zip_batch (files : List MDFile) (uploadName : Str) (readErr : Nat → Bool)
    (hn : 50 < (md_files files).length)
    (hok : ∀ t, t < (md_files files).length → readErr (t + 1) = false) :
    upload_zip (.extracted files) uploadName readErr =
      ⟨.zipResponse (entriesFrom 1 ((md_files files).map fun f => f.content))
         (chars "merged_files.zip"),
       ((List.range (md_files files).length).map
          fun t => ⟨(md_files files).length, t + 1, false⟩)
         ++ [⟨(md_files files).length, (md_files files).length, true⟩], true⟩ := by
  have hmap : ((md_files files).map fun f => f.content).length = (md_files files).length := by
    simp
  have hz : (0 : Nat) = MAX_FILES_PER_MERGE * 0 := by simp
  have hcond : ¬ ((md_files files).length ≤ 50) := by omega
  simp only [upload_zip]
  rw [if_neg hcond]
  rw [hz, mergeLoop_ok ((md_files files).length) readErr
    ((md_files files).map fun f => f.content).length
    ((md_files files).map fun f => f.content) rfl 0
    (fun t ht => by
      rw [hmap] at ht
      have h2 := hok t ht
      simpa using h2)]
  simp only [hmap]
  simp

theorem upload_zip_fail (files : List MDFile) (uploadName : Str) (readErr : Nat → Bool)
    (g : Nat)
    (hn : 50 < (md_files files).length)
    (hg1 : 1 ≤ g) (hg2 : g ≤ (md_files files).length)
    (hpre : ∀ p, 1 ≤ p → p < g → readErr p = false)
    (hfail : readErr g = true) :
    upload_zip (.extracted files) uploadName readErr =
      ⟨.uncaughtError,
       (List.range g).map fun t => ⟨(md_files files).length, t + 1, false⟩, true⟩ := by
  have hmap : ((md_files files).map fun f => f.content).length = (md_files files).length := by
    simp
  have hz : (0 : Nat) = MAX_FILES_PER_MERGE * 0 := by simp
  have hcond : ¬ ((md_files files).length ≤ 50) := by omega
  simp only [upload_zip]
  rw [if_neg hcond]
  rw [hz, mergeLoop_fail ((md_files files).length) readErr
    ((md_files files).map fun f => f.content).length
    ((md_files files).map fun f => f.content) rfl 0 g
    (by simpa using hg1) (by rw [hmap]; simpa using hg2)
    (fun p h1 h2 => hpre p (by simpa using h1) h2) hfail]
  simp

theorem entriesFrom_length :
    ∀ (L : Nat) (rem : List Str), rem.length = L → ∀ (b : Nat),
    (entriesFrom b rem).length =
      (rem.length + MAX_FILES_PER_MERGE - 1) / MAX_FILES_PER_MERGE := by
  have hM : MAX_FILES_PER_MERGE = 49 := rfl
  intro L
  induction L using Nat.strong_induction_on with
  | _ L ih =>
    intro rem hL b
    match rem with
    | [] => simp [entriesFrom, hM]
    | d :: ds =>
      have hL2 : ds.length + 1 = L := by simpa using hL
      rw [entriesFrom]
      simp only [List.length_cons]
      rw [ih (((d :: ds).drop MAX_FILES_PER_MERGE).length)
        (by simp only [List.length_drop, List.length_cons]; rw [hM]; omega)
        ((d :: ds).drop MAX_FILES_PER_MERGE) rfl (b + 1)]
      simp only [List.length_drop, List.length_cons, hM]
      omega

theorem entriesFrom_getD :
    ∀ (L : Nat) (rem : List Str), rem.length = L → ∀ (b k : Nat),
    k < (entriesFrom b rem).length →
    (entriesFrom b rem).getD k ([], []) =
      mkEntry (b + k) ((rem.drop (MAX_FILES_PER_MERGE * k)).take MAX_FILES_PER_MERGE) := by
  have hM : MAX_FILES_PER_MERGE = 49 := rfl
  intro L
  induction L using Nat.strong_induction_on with
  | _ L ih =>
    intro rem hL b k hk
    match rem with
    | [] => simp [entriesFrom] at hk
    | d :: ds =>
      have hL2 : ds.length + 1 = L := by simpa using hL
      rw [entriesFrom] at hk ⊢
      cases k with
      | zero => simp [List.getD_cons_zero]
      | succ k =>
        rw [List.getD_cons_succ]
        simp only [List.length_cons] at hk
        rw [ih (((d :: ds).drop MAX_FILES_PER_MERGE).length)
          (by simp only [List.length_drop, List.length_cons]; rw [hM]; omega)
          ((d :: ds).drop MAX_FILES_PER_MERGE) rfl (b + 1) k (by simpa using hk)]
        rw [List.drop_drop]
        have he1 : b + 1 + k = b + (k + 1) := by omega
        have he2 : MAX_FILES_PER_MERGE + MAX_FILES_PER_MERGE * k =
            MAX_FILES_PER_MERGE * (k + 1) := by ring
        rw [he1, he2]

theorem batch_events_getD (n k : Nat) (hk : k ≤ n) :
    (((List.range n).map fun t => (⟨n, t + 1, false⟩ : ProgressEvent)) ++
        ([⟨n, n, true⟩] : List ProgressEvent)).getD k (⟨0, 0, false⟩ : ProgressEvent) =
      if k = n then (⟨n, n, true⟩ : ProgressEvent) else ⟨n, k + 1, false⟩ := by
  by_cases h : k = n
  · subst h
    rw [if_pos rfl, List.getD_eq_getElem?_getD, List.getElem?_append_right (by simp)]
    simp
  · have hk2 : k < n := by omega
    rw [if_neg h, List.getD_eq_getElem?_getD, List.getElem?_append_left (by simp [hk2])]
    simp [hk2]

theorem count_aux_le : ∀ (s : Str) (b : Bool), count_aux s b ≤ s.length := by
  intro s
  induction s with
  | nil => intro b; simp [count_aux]
  | cons c rest ih =>
    intro b
    rw [count_aux]
    by_cases hsp : pyIsSpace c
    · rw [if_pos hsp]
      have := ih false
      simp
      omega
    · rw [if_neg hsp]
      have := ih true
      by_cases hb : b <;> simp [hb] <;> omega

theorem count_words_le (s : Str) : count_words s ≤ s.length :=
  count_aux_le s false

theorem lstrip_length_le (s : Str) : (lstrip s).length ≤ s.length :=
  List.Sublist.length_le (List.dropWhile_sublist _)

theorem pySplit_mem_length_le (sep : Str) :
    ∀ (m : Nat) (s x : Str), x ∈ pySplit sep m s → x.length ≤ s.length := by
  intro m
  induction m with
  | zero =>
    intro s x hx
    simp [pySplit] at hx
    simp [hx]
  | succ m ih =>
    intro s x hx
    rw [pySplit] at hx
    cases hf : findSub sep s with
    | none =>
      rw [hf] at hx
      simp at hx
      simp [hx]
    | some j =>
      rw [hf] at hx
      simp at hx
      cases hx with
      | inl h => simp [h, List.length_take]
      | inr h =>
        have := ih (s.drop (j + sep.length)) x h
        simp [List.length_drop] at this
        omega

theorem strip_metadata_length_le (s : Str) : (strip_metadata s).length ≤ s.length := by
  rw [strip_metadata]
  by_cases h1 : marker.isPrefixOf s
  · rw [if_pos h1]
    by_cases h2 : (pySplit marker 2 s).length = 3
    · rw [if_pos h2]
      have hmem : (pySplit marker 2 s).getD 2 [] ∈ pySplit marker 2 s ∨
          (pySplit marker 2 s).getD 2 [] = [] := by
        by_cases hlen : 2 < (pySplit marker 2 s).length
        · left
          rw [List.getD_eq_getElem _ _ hlen]
          exact List.getElem_mem hlen
        · right
          rw [List.getD_eq_getElem?_getD, List.getElem?_eq_none (by omega)]
          rfl
      cases hmem with
      | inl h =>
        have := pySplit_mem_length_le marker 2 s _ h
        have := lstrip_length_le ((pySplit marker 2 s).getD 2 [])
        omega
      | inr h =>
        rw [h]
        simp [lstrip]
    · rw [if_neg h2]
  · rw [if_neg h1]

theorem batchText_length_le (w : List Str) :
    (batchText w).length ≤ (w.map fun d => d.length + 2).sum := by
  induction w with
  | nil => simp [batchText]
  | cons d ds ih =>
    simp only [batchText, List.map_cons, List.flatten_cons, List.length_append, List.sum_cons]
    have h1 := strip_metadata_length_le d
    have h2 : (nl2 : Str).length = 2 := rfl
    simp only [batchText] at ih
    omega

theorem isPrefixOf_append (a t : Str) : a.isPrefixOf (a ++ t) = true :=
  List.isPrefixOf_iff_prefix.mpr ⟨t, rfl⟩

theorem isSuffixOf_append (a t : Str) : t.isSuffixOf (a ++ t) = true :=
  List.isSuffixOf_iff_suffix.mpr ⟨a, rfl⟩

/-- The dot of the ".md" pattern pins down its occurrences: in a text of
the shape a ++ ".md" with no dot in a, the leftmost occurrence is the
final one. -/
theorem findSub_dotmd (a : Str) (hd : '.' ∉ a) :
    findSub (chars ".md") (a ++ chars ".md") = some a.length := by
  induction a with
  | nil => decide
  | cons c a ih =>
    have hc : c ≠ '.' := fun h => hd (by simp [h])
    have hda : '.' ∉ a := fun h => hd (by simp [h])
    rw [List.cons_append, findSub]
    rw [if_neg ?_]
    · rw [ih hda]
      simp
    · intro hpre
      obtain ⟨t, ht⟩ := List.isPrefixOf_iff_prefix.mp hpre
      have : c = '.' := by
        have := congrArg (fun l => l.head?) ht
        simpa [chars] using this.symm
      exact hc this

theorem findSub_none_of_short (pat s : Str) (h : s.length < pat.length) :
    findSub pat s = none := by
  induction s with
  | nil =>
    cases pat with
    | nil => simp at h
    | cons c l => simp [findSub, List.isPrefixOf]
  | cons c rest ih =>
    have hpre : ¬ (pat.isPrefixOf (c :: rest) = true) := by
      intro hp
      obtain ⟨t, ht⟩ := List.isPrefixOf_iff_prefix.mp hp
      have h2 := congrArg List.length ht
      simp only [List.length_append, List.length_cons] at h2
      simp only [List.length_cons] at h
      omega
    rw [findSub, if_neg hpre, ih (by simp only [List.length_cons] at h; omega)]
    rfl

theorem pyReplace_eq_some {s pat rep : Str} {j : Nat} (hp : pat ≠ [])
    (hf : findSub pat s = some j) :
    pyReplace s pat rep =
      s.take j ++ rep ++ pyReplace (s.drop (j + pat.length)) pat rep := by
  rw [pyReplace, dif_neg hp]
  split
  · rename_i hnone
    rw [hf] at hnone
    exact absurd hnone (by simp)
  · rename_i j2 hsome
    rw [hf] at hsome
    simp at hsome
    subst hsome
    rfl

theorem pyReplace_eq_none {s pat rep : Str} (hp : pat ≠ [])
    (hf : findSub pat s = none) :
    pyReplace s pat rep = s := by
  rw [pyReplace, dif_neg hp]
  split
  · rfl
  · rename_i j2 hsome
    rw [hf] at hsome
    exact absurd hsome (by simp)

theorem pyReplace_dotmd (a rep : Str) (hd : '.' ∉ a) :
    pyReplace (a ++ chars ".md") (chars ".md") rep = a ++ rep := by
  rw [pyReplace_eq_some (by decide) (findSub_dotmd a hd)]
  have htake : (a ++ chars ".md").take a.length = a := List.take_left a _
  have hdrop : (a ++ chars ".md").drop (a.length + (chars ".md").length) = [] := by
    rw [List.drop_append]
    rfl
  rw [htake, hdrop, pyReplace_eq_none (by decide) (by decide)]
  simp

theorem decimalAux_mem : ∀ (fuel n : Nat) (acc : Str) (c : Char),
    c ∈ decimalAux fuel n acc → c ∈ acc ∨ ∃ d, d < 10 ∧ c = digitChar d := by
  intro fuel
  induction fuel with
  | zero =>
    intro n acc c hc
    exact Or.inl hc
  | succ fuel ih =>
    intro n acc c hc
    rw [decimalAux] at hc
    by_cases h : n = 0
    · rw [if_pos h] at hc
      exact Or.inl hc
    · rw [if_neg h] at hc
      cases ih (n / 10) (digitChar (n % 10) :: acc) c hc with
      | inl hmem =>
        cases hmem with
        | head => exact Or.inr ⟨n % 10, Nat.mod_lt n (by omega), rfl⟩
        | tail _ hmem2 => exact Or.inl hmem2
      | inr hd => exact Or.inr hd

theorem digitChar_ne_dot (d : Nat) (hd : d < 10) : digitChar d ≠ '.' := by
  interval_cases d <;> decide

theorem decimal_no_dot (n : Nat) : '.' ∉ decimal n := by
  rw [decimal]
  by_cases h : n = 0
  · rw [if_pos h]
    decide
  · rw [if_neg h]
    intro hc
    cases decimalAux_mem n n [] '.' hc with
    | inl h2 => exact absurd h2 (by simp)
    | inr h2 =>
      obtain ⟨d, hd, he⟩ := h2
      exact digitChar_ne_dot d hd he.symm

theorem mergeName_le (b wc : Nat) (h : wc ≤ MAX_WORDS) :
    mergeName b wc = chars "merged_part" ++ decimal b ++ chars ".md" := by
  rw [mergeName, if_neg (by omega)]

theorem no_dot_head (b : Nat) : '.' ∉ chars "merged_part" ++ decimal b := by
  intro hc
  cases List.mem_append.mp hc with
  | inl h2 => exact absurd h2 (by decide)
  | inr h2 => exact decimal_no_dot b h2

theorem mergeName_over (b wc : Nat) (h : MAX_WORDS < wc) :
    mergeName b wc = chars "merged_part" ++ decimal b ++ chars "_OVER50000WORDS.md" := by
  rw [mergeName, if_pos h]
  exact pyReplace_dotmd (chars "merged_part" ++ decimal b) _ (no_dot_head b)

theorem mergeName_startsWith (b wc : Nat) :
    (chars "merged_part" ++ decimal b).isPrefixOf (mergeName b wc) = true := by
  by_cases h : wc ≤ MAX_WORDS
  · rw [mergeName_le b wc h]
    exact isPrefixOf_append _ _
  · rw [mergeName_over b wc (by omega)]
    exact isPrefixOf_append _ _

theorem mergeName_endsWith (b wc : Nat) :
    (chars ".md").isSuffixOf (mergeName b wc) = true := by
  by_cases h : wc ≤ MAX_WORDS
  · rw [mergeName_le b wc h]
    exact isSuffixOf_append _ _
  · rw [mergeName_over b wc (by omega)]
    have hsplit : chars "_OVER50000WORDS.md" = chars "_OVER50000WORDS" ++ chars ".md" := by
      decide
    rw [hsplit, ← List.append_assoc]
    exact isSuffixOf_append _ _

theorem mergeName_token (b wc : Nat) :
    ∃ t, mergeName b wc = chars "merged_part" ++ t := by
  by_cases h : wc ≤ MAX_WORDS
  · exact ⟨decimal b ++ chars ".md", by rw [mergeName_le b wc h, List.append_assoc]⟩
  · exact ⟨decimal b ++ chars "_OVER50000WORDS.md",
      by rw [mergeName_over b wc (by omega), List.append_assoc]⟩

theorem basename_aux_no_slash : ∀ (p acc : Str), '/' ∉ acc →
    '/' ∉ p.foldl (fun acc c => if c = '/' then [] else acc ++ [c]) acc := by
  intro p
  induction p with
  | nil =>
    intro acc h
    simpa using h
  | cons c rest ih =>
    intro acc h
    rw [List.foldl_cons]
    by_cases hc : c = '/'
    · simp only [if_pos hc]
      exact ih [] (by simp)
    · simp only [if_neg hc]
      refine ih (acc ++ [c]) ?_
      intro hm
      cases List.mem_append.mp hm with
      | inl h2 => exact h h2
      | inr h2 =>
        simp at h2
        exact hc h2.symm

theorem basename_no_slash (p : Str) : '/' ∉ basename p :=
  basename_aux_no_slash p [] (by simp)

/-- Written from the claim of the specification: the merged text of a
batch is the normalized document texts joined with a single blank-line
separator between consecutive documents (and nothing after the last
one). -/
def claimBatchText (w : List Str) : Str :=
  List.intercalate nl2 (w.map strip_metadata)

theorem batchText_intercalate : ∀ (w : List Str), w ≠ [] →
    batchText w = claimBatchText w ++ nl2 := by
  intro w
  induction w with
  | nil => intro h; exact absurd rfl h
  | cons d ds ih =>
    intro _
    cases ds with
    | nil => simp [batchText, claimBatchText, List.intercalate]
    | cons e es =>
      have h1 : batchText (d :: e :: es) =
          strip_metadata d ++ nl2 ++ batchText (e :: es) := by
        simp [batchText]
      have h2 : claimBatchText (d :: e :: es) =
          strip_metadata d ++ nl2 ++ claimBatchText (e :: es) := by
        simp only [claimBatchText, List.map_cons, List.intercalate,
          List.intersperse_cons₂, List.flatten_cons]
        simp [List.append_assoc]
      rw [h1, ih (by simp), h2]
      simp [List.append_assoc]

theorem findSub_zero_of_isPrefixOf {pat s : Str} (h : pat.isPrefixOf s = true) :
    findSub pat s = some 0 := by
  cases s with
  | nil => simp [findSub, h]
  | cons c rest => simp [findSub, h]

theorem pySplit_succ_some {sep s : Str} {m j : Nat} (hf : findSub sep s = some j) :
    pySplit sep (m + 1) s = s.take j :: pySplit sep m (s.drop (j + sep.length)) := by
  rw [pySplit, hf]

theorem pySplit_succ_none {sep s : Str} {m : Nat} (hf : findSub sep s = none) :
    pySplit sep (m + 1) s = [s] := by
  rw [pySplit, hf]

theorem strip_metadata_noPrefix {s : Str} (h1 : ¬ (marker.isPrefixOf s = true)) :
    strip_metadata s = s := by
  rw [strip_metadata, if_neg h1]

theorem strip_metadata_noClose {s : Str}
    (h1 : marker.isPrefixOf s = true) (h2 : findSub marker (s.drop 3) = none) :
    strip_metadata s = s := by
  rw [strip_metadata, if_pos h1]
  have e1 : pySplit marker 2 s = s.take 0 :: pySplit marker 1 (s.drop (0 + marker.length)) :=
    pySplit_succ_some (findSub_zero_of_isPrefixOf h1)
  have hm : (0 : Nat) + marker.length = 3 := rfl
  rw [hm] at e1
  have e2 : pySplit marker 1 (s.drop 3) = [s.drop 3] := pySplit_succ_none h2
  rw [e1, e2]
  simp

theorem strip_metadata_found {s : Str} {j : Nat}
    (h1 : marker.isPrefixOf s = true) (h2 : findSub marker (s.drop 3) = some j) :
    strip_metadata s = lstrip (s.drop (j + 6)) := by
  rw [strip_metadata, if_pos h1]
  have e1 : pySplit marker 2 s = s.take 0 :: pySplit marker 1 (s.drop (0 + marker.length)) :=
    pySplit_succ_some (findSub_zero_of_isPrefixOf h1)
  have hm : (0 : Nat) + marker.length = 3 := rfl
  rw [hm] at e1
  have e2 : pySplit marker 1 (s.drop 3) =
      (s.drop 3).take j :: pySplit marker 0 ((s.drop 3).drop (j + marker.length)) :=
    pySplit_succ_some h2
  have hm2 : (marker : Str).length = 3 := rfl
  rw [hm2] at e2
  rw [e1, e2]
  have e3 : pySplit marker 0 ((s.drop 3).drop (j + 3)) = [(s.drop 3).drop (j + 3)] := rfl
  rw [e3]
  simp only [List.length_cons, List.length_nil, if_true]
  rw [List.getD_cons_succ, List.getD_cons_succ, List.getD_cons_zero]
  rw [List.drop_drop]
  congr 2
  omega

set_option maxRecDepth 10000

/-- The oracle of a run in which every read succeeds. -/
def noErr : Nat → Bool := fun _ => false

/-- Fifty-one markdown files with one-character content: the smallest
kind of input that triggers batch mode. -/
def files51x : List MDFile := List.replicate 51 ⟨chars "a.md", chars "x"⟩

/-- One thousand identical one-line documents. -/
def files1000 : List MDFile := List.replicate 1000 ⟨chars "doc.md", chars "hello world"⟩

/-- C2: with at most 50 discovered documents (zero included) the output
archive holds one entry per discovered document, named by the base
filename with no directory part, with content identical to the source
document, and the zero-document case is a normal empty ZIP response,
not an error. -/
theorem c2_single_pass_identity (files : List MDFile) (uploadName : Str)
    (hn : (md_files files).length ≤ 50) :
    ∃ entries,
      (upload_zip (.extracted files) uploadName noErr).outcome =
        .zipResponse entries uploadName ∧
      entries.length = (md_files files).length ∧
      (∀ k, k < (md_files files).length →
        entries.getD k ([], []) =
          (basename ((md_files files).getD k (⟨[], []⟩ : MDFile)).path,
           ((md_files files).getD k (⟨[], []⟩ : MDFile)).content)) ∧
      (∀ e ∈ entries, '/' ∉ e.1) ∧
      ((md_files files).length = 0 → entries = []) := by
  refine ⟨(md_files files).map fun f => (basename f.path, f.content), ?_, by simp, ?_, ?_, ?_⟩
  · rw [upload_zip_single files uploadName _ hn]
  · intro k hk
    rw [List.getD_eq_getElem _ _ (by simp [hk]), List.getElem_map,
      List.getD_eq_getElem _ _ hk]
  · intro e he
    obtain ⟨f, _, he2⟩ := List.mem_map.mp he
    rw [← he2]
    exact basename_no_slash _
  · intro h0
    rw [List.length_eq_zero.mp h0]
    rfl

/-- Witness for C2 at a concrete two-file archive (one nested markdown
file, one non-markdown file). -/
theorem c2_witness :
    (md_files [⟨chars "d/x.md", chars "hi"⟩, ⟨chars "y.txt", chars "t"⟩]).length ≤ 50 ∧
    (∃ entries,
      (upload_zip (.extracted [⟨chars "d/x.md", chars "hi"⟩, ⟨chars "y.txt", chars "t"⟩])
          (chars "u.zip") noErr).outcome = .zipResponse entries (chars "u.zip") ∧
      entries.length =
        (md_files [⟨chars "d/x.md", chars "hi"⟩, ⟨chars "y.txt", chars "t"⟩]).length ∧
      (∀ k, k < (md_files [⟨chars "d/x.md", chars "hi"⟩, ⟨chars "y.txt", chars "t"⟩]).length →
        entries.getD k ([], []) =
          (basename ((md_files [⟨chars "d/x.md", chars "hi"⟩,
              ⟨chars "y.txt", chars "t"⟩]).getD k (⟨[], []⟩ : MDFile)).path,
           ((md_files [⟨chars "d/x.md", chars "hi"⟩,
              ⟨chars "y.txt", chars "t"⟩]).getD k (⟨[], []⟩ : MDFile)).content)) ∧
      (∀ e ∈ entries, '/' ∉ e.1) ∧
      ((md_files [⟨chars "d/x.md", chars "hi"⟩, ⟨chars "y.txt", chars "t"⟩]).length = 0 →
        entries = [])) :=
  ⟨by decide, c2_single_pass_identity _ _ (by decide)⟩

/-- C5: in single-pass mode the code builds the response without ever
putting an event on the progress queue: line 139 of app.py sets the
done flag on its local dict but no put follows, so, against the claim,
not even the final completion event reaches the channel.  Evaluated at
a concrete two-document input. -/
theorem c5_single_pass_pushes_no_event :
    (upload_zip (.extracted [⟨chars "b.md", chars "y"⟩, ⟨chars "c.md", chars "z"⟩])
        (chars "u.zip") noErr).outcome =
      .zipResponse [(chars "b.md", chars "y"), (chars "c.md", chars "z")] (chars "u.zip") ∧
    (upload_zip (.extracted [⟨chars "b.md", chars "y"⟩, ⟨chars "c.md", chars "z"⟩])
        (chars "u.zip") noErr).events = [] := by
  decide

/-- C9: bytes that are not a well-formed ZIP archive produce the 400
JSON error response with the verbatim message, no ZIP entries, no
uncaught exception, and the scratch directory is reclaimed. -/
theorem c9_invalid_zip (uploadName : Str) (readErr : Nat → Bool) :
    (upload_zip .badZip uploadName readErr).outcome =
      .errorResponse 400 (chars "Invalid ZIP file") ∧
    (∀ es dn, (upload_zip .badZip uploadName readErr).outcome ≠ .zipResponse es dn) ∧
    (upload_zip .badZip uploadName readErr).outcome ≠ .uncaughtError ∧
    (upload_zip .badZip uploadName readErr).events = [] ∧
    (upload_zip .badZip uploadName readErr).tempDirCleaned = true := by
  refine ⟨rfl, ?_, ?_, rfl, rfl⟩
  · intro es dn h
    exact absurd h (by simp [upload_zip])
  · intro h
    exact absurd h (by simp [upload_zip])

/-- C3: normalization of a document text.  When the text starts with
the three-character marker and the marker occurs again in the rest
(so the split with maxsplit 2 has three parts, the second occurrence
found at offset j of the rest), the result is the remainder after that
second marker with leading whitespace stripped; when the text does not
start with the marker, or no second marker exists, the text is
returned unchanged; the empty text normalizes to the empty text. -/
theorem c3_normalizer_spec (s : Str) :
    (marker.isPrefixOf s = false → strip_metadata s = s) ∧
    (marker.isPrefixOf s = true → findSub marker (s.drop 3) = none →
      strip_metadata s = s) ∧
    (∀ j, marker.isPrefixOf s = true → findSub marker (s.drop 3) = some j →
      strip_metadata s = lstrip (s.drop (j + 6))) ∧
    (s = [] → strip_metadata s = []) := by
  refine ⟨?_, ?_, ?_, ?_⟩
  · intro h
    exact strip_metadata_noPrefix (by simp [h])
  · intro h1 h2
    exact strip_metadata_noClose h1 h2
  · intro j h1 h2
    exact strip_metadata_found h1 h2
  · intro h
    subst h
    rfl

/-- Witness for C3 at the text with a complete metadata block: the
second marker sits at offset 10 of the text after the opening marker,
and normalization keeps only the stripped body. -/
theorem c3_witness :
    marker.isPrefixOf (chars "---\ntitle: t\n---\n\nbody") = true ∧
    findSub marker ((chars "---\ntitle: t\n---\n\nbody").drop 3) = some 10 ∧
    strip_metadata (chars "---\ntitle: t\n---\n\nbody") =
      lstrip ((chars "---\ntitle: t\n---\n\nbody").drop 16) ∧
    lstrip ((chars "---\ntitle: t\n---\n\nbody").drop 16) = chars "body" :=
  ⟨by decide, by decide,
   (c3_normalizer_spec (chars "---\ntitle: t\n---\n\nbody")).2.2.1 10 (by decide) (by decide),
   by decide⟩

/-- C1: with more than 50 discovered documents the run returns the
merged ZIP with exactly ceil(count / cap) entries, the k-th entry (k
1-indexed) named with the merged_part marker followed by the batch
number and the .md extension, and its text built from the k-th
sequential non-overlapping window of the discovery-ordered list. -/
theorem c1_batch_count_and_names (files : List MDFile) (uploadName : Str)
    (hn : 50 < (md_files files).length) :
    ∃ entries,
      (upload_zip (.extracted files) uploadName noErr).outcome =
        .zipResponse entries (chars "merged_files.zip") ∧
      entries.length =
        ((md_files files).length + MAX_FILES_PER_MERGE - 1) / MAX_FILES_PER_MERGE ∧
      (∀ k, k < entries.length →
        (chars "merged_part" ++ decimal (k + 1)).isPrefixOf
          (entries.getD k ([], [])).1 = true ∧
        (chars ".md").isSuffixOf (entries.getD k ([], [])).1 = true ∧
        (∃ t, (entries.getD k ([], [])).1 = chars "merged_part" ++ t) ∧
        (entries.getD k ([], [])).2 =
          batchText ((((md_files files).map fun f => f.content).drop
            (MAX_FILES_PER_MERGE * k)).take MAX_FILES_PER_MERGE)) := by
  refine ⟨entriesFrom 1 ((md_files files).map fun f => f.content), ?_, ?_, ?_⟩
  · rw [upload_zip_batch files uploadName noErr hn (fun t _ => rfl)]
  · rw [entriesFrom_length _ _ rfl 1]
    simp
  · intro k hk
    rw [entriesFrom_getD _ _ rfl 1 k hk]
    have hc : 1 + k = k + 1 := Nat.add_comm 1 k
    simp only [mkEntry, hc]
    exact ⟨mergeName_startsWith _ _, mergeName_endsWith _ _, mergeName_token _ _, trivial⟩

/-- Witness for C1 at the 51-document input. -/
theorem c1_witness :
    50 < (md_files files51x).length ∧
    (∃ entries,
      (upload_zip (.extracted files51x) (chars "u.zip") noErr).outcome =
        .zipResponse entries (chars "merged_files.zip") ∧
      entries.length =
        ((md_files files51x).length + MAX_FILES_PER_MERGE - 1) / MAX_FILES_PER_MERGE ∧
      (∀ k, k < entries.length →
        (chars "merged_part" ++ decimal (k + 1)).isPrefixOf
          (entries.getD k ([], [])).1 = true ∧
        (chars ".md").isSuffixOf (entries.getD k ([], [])).1 = true ∧
        (∃ t, (entries.getD k ([], [])).1 = chars "merged_part" ++ t) ∧
        (entries.getD k ([], [])).2 =
          batchText ((((md_files files51x).map fun f => f.content).drop
            (MAX_FILES_PER_MERGE * k)).take MAX_FILES_PER_MERGE))) :=
  ⟨by decide, c1_batch_count_and_names files51x (chars "u.zip") (by decide)⟩

/-- C6: each merged entry's filename is the plain merged_part name when
the whitespace-split word count of its text is at or below the 50000
threshold, and the name with the fixed over-threshold suffix before
the extension when the word count strictly exceeds it. -/
theorem c6_word_count_suffix (files : List MDFile) (uploadName : Str)
    (hn : 50 < (md_files files).length) :
    ∃ entries,
      (upload_zip (.extracted files) uploadName noErr).outcome =
        .zipResponse entries (chars "merged_files.zip") ∧
      (∀ k, k < entries.length →
        (MAX_WORDS < count_words (entries.getD k ([], [])).2 →
          (entries.getD k ([], [])).1 =
            chars "merged_part" ++ decimal (k + 1) ++ chars "_OVER50000WORDS.md") ∧
        (count_words (entries.getD k ([], [])).2 ≤ MAX_WORDS →
          (entries.getD k ([], [])).1 =
            chars "merged_part" ++ decimal (k + 1) ++ chars ".md")) := by
  refine ⟨entriesFrom 1 ((md_files files).map fun f => f.content), ?_, ?_⟩
  · rw [upload_zip_batch files uploadName noErr hn (fun t _ => rfl)]
  · intro k hk
    rw [entriesFrom_getD _ _ rfl 1 k hk]
    have hc : 1 + k = k + 1 := Nat.add_comm 1 k
    simp only [mkEntry, hc]
    exact ⟨fun h => mergeName_over _ _ h, fun h => mergeName_le _ _ h⟩

/-- Witness for C6 at the 51-document input. -/
theorem c6_witness :
    50 < (md_files files51x).length ∧
    (∃ entries,
      (upload_zip (.extracted files51x) (chars "u.zip") noErr).outcome =
        .zipResponse entries (chars "merged_files.zip") ∧
      (∀ k, k < entries.length →
        (MAX_WORDS < count_words (entries.getD k ([], [])).2 →
          (entries.getD k ([], [])).1 =
            chars "merged_part" ++ decimal (k + 1) ++ chars "_OVER50000WORDS.md") ∧
        (count_words (entries.getD k ([], [])).2 ≤ MAX_WORDS →
          (entries.getD k ([], [])).1 =
            chars "merged_part" ++ decimal (k + 1) ++ chars ".md"))) :=
  ⟨by decide, c6_word_count_suffix files51x (chars "u.zip") (by decide)⟩

theorem batch_events (files : List MDFile) (uploadName : Str)
    (hn : 50 < (md_files files).length) :
    (upload_zip (.extracted files) uploadName noErr).events =
      ((List.range (md_files files).length).map
        fun t => (⟨(md_files files).length, t + 1, false⟩ : ProgressEvent)) ++
      [⟨(md_files files).length, (md_files files).length, true⟩] := by
  rw [upload_zip_batch files uploadName noErr hn (fun t _ => rfl)]

/-- C4, counterexample to the claim as stated: a single-pass run (one
markdown document) pushes no events at all, so no pushed event, let
alone exactly one, has the completion flag set. -/
theorem c4_counterexample :
    (upload_zip (.extracted [⟨chars "a.md", chars "x"⟩]) (chars "u.zip") noErr).events = [] ∧
    ((upload_zip (.extracted [⟨chars "a.md", chars "x"⟩]) (chars "u.zip") noErr).events.filter
        fun e => e.done).length ≠ 1 := by
  decide

/-- C4, amended to batch-mode runs with no read failure: the pushed
events are non-decreasing in current index; an event has completion
true exactly when it is the final one; the event for the document at
0-based global position k carries current index k+1 and completion
false; the final event carries the total count as its current index,
equal to the last value pushed.  (Single-pass runs push no events at
all, so the original claim fails for them.) -/
theorem c4_amended_progress_events (files : List MDFile) (uploadName : Str)
    (hn : 50 < (md_files files).length) :
    ∀ evs, evs = (upload_zip (.extracted files) uploadName noErr).events →
      evs.length = (md_files files).length + 1 ∧
      (∀ k, k + 1 < evs.length →
        (evs.getD k (⟨0, 0, false⟩ : ProgressEvent)).current_index ≤
          (evs.getD (k + 1) (⟨0, 0, false⟩ : ProgressEvent)).current_index) ∧
      (∀ k, k < evs.length →
        ((evs.getD k (⟨0, 0, false⟩ : ProgressEvent)).done = true ↔
          k = evs.length - 1)) ∧
      (∀ k, k < (md_files files).length →
        evs.getD k (⟨0, 0, false⟩ : ProgressEvent) =
          ⟨(md_files files).length, k + 1, false⟩) ∧
      evs.getD (md_files files).length (⟨0, 0, false⟩ : ProgressEvent) =
        ⟨(md_files files).length, (md_files files).length, true⟩ := by
  intro evs hevs
  rw [hevs, batch_events files uploadName hn]
  have hlen :
      ((((List.range (md_files files).length).map
          fun t => (⟨(md_files files).length, t + 1, false⟩ : ProgressEvent)) ++
        ([⟨(md_files files).length, (md_files files).length, true⟩] :
          List ProgressEvent)).length) =
      (md_files files).length + 1 := by
    simp
  refine ⟨hlen, ?_, ?_, ?_, ?_⟩
  · intro k hk
    rw [hlen] at hk
    rw [batch_events_getD _ k (by omega), batch_events_getD _ (k + 1) (by omega)]
    rw [if_neg (by omega)]
    by_cases h : k + 1 = (md_files files).length
    · rw [if_pos h]
      simp
      omega
    · rw [if_neg h]
      simp
  · intro k hk
    rw [hlen] at hk
    rw [hlen, batch_events_getD _ k (by omega)]
    by_cases h : k = (md_files files).length
    · rw [if_pos h]
      simp
      omega
    · rw [if_neg h]
      simp
      omega
  · intro k hk
    rw [batch_events_getD _ k (by omega), if_neg (by omega)]
  · rw [batch_events_getD _ (md_files files).length (by omega), if_pos rfl]

/-- Witness for the amended C4 at the 51-document input. -/
theorem c4_witness :
    50 < (md_files files51x).length ∧
    ((upload_zip (.extracted files51x) (chars "u.zip") noErr).events.length =
      (md_files files51x).length + 1 ∧
    (∀ k, k + 1 < (upload_zip (.extracted files51x) (chars "u.zip") noErr).events.length →
      ((upload_zip (.extracted files51x) (chars "u.zip") noErr).events.getD k
          (⟨0, 0, false⟩ : ProgressEvent)).current_index ≤
        ((upload_zip (.extracted files51x) (chars "u.zip") noErr).events.getD (k + 1)
          (⟨0, 0, false⟩ : ProgressEvent)).current_index) ∧
    (∀ k, k < (upload_zip (.extracted files51x) (chars "u.zip") noErr).events.length →
      (((upload_zip (.extracted files51x) (chars "u.zip") noErr).events.getD k
          (⟨0, 0, false⟩ : ProgressEvent)).done = true ↔
        k = (upload_zip (.extracted files51x) (chars "u.zip") noErr).events.length - 1)) ∧
    (∀ k, k < (md_files files51x).length →
      (upload_zip (.extracted files51x) (chars "u.zip") noErr).events.getD k
          (⟨0, 0, false⟩ : ProgressEvent) =
        ⟨(md_files files51x).length, k + 1, false⟩) ∧
    (upload_zip (.extracted files51x) (chars "u.zip") noErr).events.getD
        (md_files files51x).length (⟨0, 0, false⟩ : ProgressEvent) =
      ⟨(md_files files51x).length, (md_files files51x).length, true⟩) :=
  ⟨by decide, c4_amended_progress_events files51x (chars "u.zip") (by decide) _ rfl⟩

/-- C7, counterexample to the claim as stated: 1000 identical one-line
documents are merged with the code's cap of 49 files per batch, giving
ceil(1000 / 49) = 21 entries, not the 20 the claim (assuming a cap of
50) expects. -/
theorem c7_counterexample :
    (outputEntries (upload_zip (.extracted files1000) (chars "u.zip") noErr)).length ≠ 20 ∧
    (outputEntries (upload_zip (.extracted files1000) (chars "u.zip") noErr)).length = 21 := by
  have hn : 50 < (md_files files1000).length := by decide
  have hrun := upload_zip_batch files1000 (chars "u.zip") noErr hn (fun t _ => rfl)
  have hent : outputEntries (upload_zip (.extracted files1000) (chars "u.zip") noErr) =
      entriesFrom 1 ((md_files files1000).map fun f => f.content) := by
    rw [hrun]
    rfl
  rw [hent, entriesFrom_length _ _ rfl 1]
  have hlen : ((md_files files1000).map fun f => f.content).length = 1000 := by decide
  rw [hlen]
  exact ⟨by decide, by decide⟩

/-- C7, amended: 1000 identical one-line documents produce exactly 21
merged entries, named merged_part1.md through merged_part21.md (each
batch stays far below the word-count threshold). -/
theorem c7_amended_21_parts :
    (outputEntries (upload_zip (.extracted files1000) (chars "u.zip") noErr)).length = 21 ∧
    (∀ k, k < 21 →
      ((outputEntries (upload_zip (.extracted files1000) (chars "u.zip") noErr)).getD
        k ([], [])).1 = chars "merged_part" ++ decimal (k + 1) ++ chars ".md") := by
  have hM : MAX_FILES_PER_MERGE = 49 := rfl
  have hMW : MAX_WORDS = 50000 := rfl
  have hn : 50 < (md_files files1000).length := by decide
  have hrun := upload_zip_batch files1000 (chars "u.zip") noErr hn (fun t _ => rfl)
  have hent : outputEntries (upload_zip (.extracted files1000) (chars "u.zip") noErr) =
      entriesFrom 1 ((md_files files1000).map fun f => f.content) := by
    rw [hrun]
    rfl
  have hfilter : md_files files1000 = files1000 := by
    rw [files1000, md_files, List.filter_replicate, if_pos (by decide)]
  have hmapc : (md_files files1000).map (fun f => f.content) =
      List.replicate 1000 (chars "hello world") := by
    rw [hfilter, files1000, List.map_replicate]
  have hlen : ((md_files files1000).map fun f => f.content).length = 1000 := by
    rw [hmapc]
    simp
  have hel : (entriesFrom 1 ((md_files files1000).map fun f => f.content)).length = 21 := by
    rw [entriesFrom_length _ _ rfl 1, hlen]
    decide
  refine ⟨by rw [hent, hel], ?_⟩
  intro k hk
  rw [hent, entriesFrom_getD _ _ rfl 1 k (by rw [hel]; omega)]
  have hc : 1 + k = k + 1 := Nat.add_comm 1 k
  simp only [mkEntry, hc]
  apply mergeName_le
  have hw : (((md_files files1000).map fun f => f.content).drop
      (MAX_FILES_PER_MERGE * k)).take MAX_FILES_PER_MERGE =
      List.replicate (min MAX_FILES_PER_MERGE (1000 - MAX_FILES_PER_MERGE * k))
        (chars "hello world") := by
    rw [hmapc, List.drop_replicate, List.take_replicate]
  rw [hw]
  have h1 := batchText_length_le
    (List.replicate (min MAX_FILES_PER_MERGE (1000 - MAX_FILES_PER_MERGE * k))
      (chars "hello world"))
  have h2 := count_words_le
    (batchText (List.replicate (min MAX_FILES_PER_MERGE (1000 - MAX_FILES_PER_MERGE * k))
      (chars "hello world")))
  rw [List.map_replicate, List.sum_replicate, smul_eq_mul] at h1
  have h3 : (chars "hello world").length + 2 = 13 := by decide
  rw [h3] at h1
  have h4 : min MAX_FILES_PER_MERGE (1000 - MAX_FILES_PER_MERGE * k) ≤ 49 := by
    rw [hM]
    omega
  rw [hMW]
  omega

/-- Witness for the amended C7 at batch number 3. -/
theorem c7_witness :
    2 < 21 ∧
    ((outputEntries (upload_zip (.extracted files1000) (chars "u.zip") noErr)).getD
      2 ([], [])).1 = chars "merged_part" ++ decimal 3 ++ chars ".md" :=
  ⟨by decide, c7_amended_21_parts.2 2 (by decide)⟩

/-- C8, counterexample to the claim as stated: in the 51-document run
the second batch holds the last two documents; its merged text is
"x\n\nx\n\n" — each normalized text is followed by a blank-line
separator, the last one included — while the claim's reading, the
texts joined with a separator only between consecutive documents,
gives "x\n\nx". -/
theorem c8_counterexample :
    (((md_files files51x).map fun f => f.content).drop (MAX_FILES_PER_MERGE * 1)).take
        MAX_FILES_PER_MERGE = List.replicate 2 (chars "x") ∧
    ((outputEntries (upload_zip (.extracted files51x) (chars "u.zip") noErr)).getD 1
      ([], [])).2 = chars "x\n\nx\n\n" ∧
    claimBatchText (List.replicate 2 (chars "x")) = chars "x\n\nx" ∧
    ((outputEntries (upload_zip (.extracted files51x) (chars "u.zip") noErr)).getD 1
      ([], [])).2 ≠ claimBatchText (List.replicate 2 (chars "x")) := by
  have hn : 50 < (md_files files51x).length := by decide
  have hrun := upload_zip_batch files51x (chars "u.zip") noErr hn (fun t _ => rfl)
  have hent : outputEntries (upload_zip (.extracted files51x) (chars "u.zip") noErr) =
      entriesFrom 1 ((md_files files51x).map fun f => f.content) := by
    rw [hrun]
    rfl
  have hlen : ((md_files files51x).map fun f => f.content).length = 51 := by decide
  have hklt : 1 < (entriesFrom 1 ((md_files files51x).map fun f => f.content)).length := by
    rw [entriesFrom_length _ _ rfl 1, hlen]
    decide
  have hgd := entriesFrom_getD _ _ rfl 1 1 hklt
  have hw : (((md_files files51x).map fun f => f.content).drop
      (MAX_FILES_PER_MERGE * 1)).take MAX_FILES_PER_MERGE =
      List.replicate 2 (chars "x") := by decide
  have hcontent : ((outputEntries (upload_zip (.extracted files51x) (chars "u.zip")
      noErr)).getD 1 ([], [])).2 = chars "x\n\nx\n\n" := by
    rw [hent, hgd]
    simp only [mkEntry]
    rw [hw]
    decide
  exact ⟨hw, hcontent, by decide, by rw [hcontent]; decide⟩

/-- C8, amended: each merged entry's text is the normalized texts of
its window, in discovery order, joined with a blank-line separator
between consecutive documents, followed by one more trailing
blank-line separator after the last document. -/
theorem c8_amended_batch_text (files : List MDFile) (uploadName : Str)
    (hn : 50 < (md_files files).length) :
    ∃ entries,
      (upload_zip (.extracted files) uploadName noErr).outcome =
        .zipResponse entries (chars "merged_files.zip") ∧
      ∀ k, k < entries.length →
        (entries.getD k ([], [])).2 =
          claimBatchText ((((md_files files).map fun f => f.content).drop
            (MAX_FILES_PER_MERGE * k)).take MAX_FILES_PER_MERGE) ++ nl2 := by
  have hM : MAX_FILES_PER_MERGE = 49 := rfl
  refine ⟨entriesFrom 1 ((md_files files).map fun f => f.content), ?_, ?_⟩
  · rw [upload_zip_batch files uploadName noErr hn (fun t _ => rfl)]
  · intro k hk
    rw [entriesFrom_getD _ _ rfl 1 k hk]
    simp only [mkEntry]
    apply batchText_intercalate
    intro he
    have h1 : ((((md_files files).map fun f => f.content).drop
        (MAX_FILES_PER_MERGE * k)).take MAX_FILES_PER_MERGE).length = 0 := by
      rw [he]
      rfl
    rw [entriesFrom_length _ _ rfl 1] at hk
    simp only [List.length_take, List.length_drop, List.length_map, hM] at h1 hk
    omega

/-- Witness for the amended C8 at the 51-document input. -/
theorem c8_witness :
    50 < (md_files files51x).length ∧
    (∃ entries,
      (upload_zip (.extracted files51x) (chars "u.zip") noErr).outcome =
        .zipResponse entries (chars "merged_files.zip") ∧
      ∀ k, k < entries.length →
        (entries.getD k ([], [])).2 =
          claimBatchText ((((md_files files51x).map fun f => f.content).drop
            (MAX_FILES_PER_MERGE * k)).take MAX_FILES_PER_MERGE) ++ nl2) :=
  ⟨by decide, c8_amended_batch_text files51x (chars "u.zip") (by decide)⟩

/-- C10: in batch mode the progress event of a document is put on the
queue before the document's content is read, so when the read of the
document at global 1-indexed position g raises while reads of all
earlier documents succeeded, the events of documents 1 through g
(the failing one included) sit on the queue in order, none of them
carries the completion flag, no completion event is ever pushed for
the run (the exception escapes), and the queue content is not rolled
back. -/
theorem c10_failure_events (files : List MDFile) (uploadName : Str) (g : Nat)
    (readErr : Nat → Bool)
    (hn : 50 < (md_files files).length)
    (hg1 : 1 ≤ g) (hg2 : g ≤ (md_files files).length)
    (hpre : ∀ p, 1 ≤ p → p < g → readErr p = false)
    (hfail : readErr g = true) :
    (upload_zip (.extracted files) uploadName readErr).events =
      (List.range g).map
        (fun t => (⟨(md_files files).length, t + 1, false⟩ : ProgressEvent)) ∧
    (∀ e ∈ (upload_zip (.extracted files) uploadName readErr).events, e.done = false) ∧
    (upload_zip (.extracted files) uploadName readErr).outcome = .uncaughtError := by
  have hrun := upload_zip_fail files uploadName readErr g hn hg1 hg2 hpre hfail
  rw [hrun]
  refine ⟨rfl, ?_, rfl⟩
  intro e he
  simp only [List.mem_map, List.mem_range] at he
  obtain ⟨t, _, he2⟩ := he
  rw [← he2]

/-- Witness for C10: the 51-document input with the read of document 5
failing. -/
theorem c10_witness :
    50 < (md_files files51x).length ∧
    ((upload_zip (.extracted files51x) (chars "u.zip") (fun p => p == 5)).events =
      (List.range 5).map
        (fun t => (⟨(md_files files51x).length, t + 1, false⟩ : ProgressEvent)) ∧
    (∀ e ∈ (upload_zip (.extracted files51x) (chars "u.zip") (fun p => p == 5)).events,
      e.done = false) ∧
    (upload_zip (.extracted files51x) (chars "u.zip") (fun p => p == 5)).outcome =
      .uncaughtError) :=
  ⟨by decide, c10_failure_events files51x (chars "u.zip") 5 (fun p => p == 5) (by decide)
    (by decide) (by decide)
    (fun p h1 h2 => by simp only [beq_eq_false_iff_ne, ne_eq]; omega) (by decide)⟩
